import Mathlib

/-!
Verification development for the Mandelbrot renderer in `src/main.rs`.

Shallow embedding conventions:
* `f64` arithmetic on sample points and colors is modelled as exact rational
  arithmetic (`ℚ`).  The grid itself is built with `Rational64` in the source,
  so the grid arithmetic is modelled exactly; the final `to_f64` conversion is
  modelled as the identity.
* A complex number `Complex64` is a pair of rationals (`QC`).
* The magnitude comparison `z.abs() < t` is modelled exactly by
  `0 < t ∧ normSq z < t * t`, which is equivalent over the reals, and
  `z.abs() == 0.0` by `normSq z = 0` (exact even in `f64`).
* Panics (`unwrap` on a missing key, the `panic!()` at the end of
  `Palette::get_color`, a failing `to_u8`) are modelled by `Option`, with
  `none` standing for a fatal failure.
* The `rayon` parallel iterators (`into_par_iter().map(..).collect()`)
  preserve the index order of the underlying collection, so they are modelled
  by `List.map`.
-/

/- The Batteries rational-number operations are marked irreducible, which
blocks `decide` from evaluating concrete rational arithmetic; restore the
default transparency for this development so concrete instances can be
checked by evaluation. -/
attribute [local semireducible] Rat.mul Rat.add Rat.inv Rat.sub

namespace Mandelbrot

/-- `Complex64` value, modelled with exact rational components. -/
structure QC where
  re : ℚ
  im : ℚ
deriving DecidableEq, Repr

instance : Add QC := ⟨fun a b => ⟨a.re + b.re, a.im + b.im⟩⟩

instance : Sub QC := ⟨fun a b => ⟨a.re - b.re, a.im - b.im⟩⟩

instance : Mul QC := ⟨fun a b => ⟨a.re * b.re - a.im * b.im, a.re * b.im + a.im * b.re⟩⟩

/-- `Complex64::i()`. -/
def QC.I : QC := ⟨0, 1⟩

/-- Squared magnitude of a complex number. -/
def QC.normSq (z : QC) : ℚ := z.re * z.re + z.im * z.im

/-- Complex division (`num_complex` formula: multiply by the conjugate and
divide by the squared magnitude of the divisor). -/
def QC.div (a b : QC) : QC :=
  ⟨(a.re * b.re + a.im * b.im) / b.normSq, (a.im * b.re - a.re * b.im) / b.normSq⟩

/-- Exact model of the `f64` comparison `z.abs() < t`. -/
def absLt (z : QC) (t : ℚ) : Prop := 0 < t ∧ z.normSq < t * t

instance (z : QC) (t : ℚ) : Decidable (absLt z t) :=
  inferInstanceAs (Decidable (_ ∧ _))

/-- `const ITERMAX: i32 = 100`. -/
def ITERMAX : ℤ := 100

/-- `fn next_mandelbrot(z: C64, c: C64) -> C64 { z * z + c }`. -/
def next_mandelbrot (z c : QC) : QC := z * z + c

/-- The `while` loop of `diverges_in`, with explicit fuel.  The loop body
runs at most `ITERMAX` times because `count` starts at `0` and the guard
requires `count < ITERMAX`, so fuel `100` is exact: if the fuel runs out the
guard would have failed anyway.  The finite-difference bookkeeping (`d`,
`d2`, `second_d`) is kept; its early-exit `return ITERMAX` is commented out
in the source, so the computed `_near_periodic` test is unused. -/
def divergesLoop (c : QC) (threshold : ℚ) : ℕ → QC → QC → ℤ → ℤ
  | 0, _, _, count => count
  | fuel + 1, accumulator, d1, count =>
    if absLt accumulator threshold ∧ count < ITERMAX then
      let next_accumulator := next_mandelbrot accumulator c
      let d := next_accumulator - accumulator
      let d2 := d1
      let second_d := d2 - d
      let _near_periodic : Prop := absLt second_d (5/100)
      divergesLoop c threshold fuel next_accumulator d (count + 1)
    else count

/-- `fn diverges_in(c: C64, threshold: f64) -> i32`. -/
def diverges_in (c : QC) (threshold : ℚ) : ℤ :=
  divergesLoop c threshold 100 c ⟨0, 0⟩ 0

/-- The escape-time loop exactly as the spec states it, with the
finite-difference near-periodicity bookkeeping removed (comparison
definition for the refinement claim C8). -/
def plainLoop (c : QC) (threshold : ℚ) : ℕ → QC → ℤ → ℤ
  | 0, _, count => count
  | fuel + 1, accumulator, count =>
    if absLt accumulator threshold ∧ count < ITERMAX then
      plainLoop c threshold fuel (next_mandelbrot accumulator c) (count + 1)
    else count

/-- Plain escape-time computation (spec comparison for claim C8). -/
def plainDiverge (c : QC) (threshold : ℚ) : ℤ :=
  plainLoop c threshold 100 c 0

/-- `fn transform(base: C64) -> C64`: translate by `-0.53i`, rotate by `i`,
then invert (`0.4 / base`) with fallback `(10, 10)` at the singular point. -/
def transform (base : QC) : QC :=
  let b := (base + ⟨0, -(53/100)⟩) * QC.I
  if b.normSq = 0 then ⟨10, 10⟩ else QC.div ⟨4/10, 0⟩ b

/-- `let y_scale: Rational64 = Rational64::new(112, 100)`. -/
def y_scale : ℚ := 112/100

/-- `let x_scale: Rational64 = y_scale * aspect_ratio` with
`aspect_ratio = width / height`. -/
def x_scale (width height : ℤ) : ℚ := y_scale * ((width : ℚ) / (height : ℚ))

/-- Horizontal sample coordinate:
`Rational64::new(2 * w, width) * x_scale - x_scale`. -/
def sampleX (width height w : ℤ) : ℚ :=
  (2 * w : ℚ) / (width : ℚ) * x_scale width height - x_scale width height

/-- Vertical sample coordinate:
`Rational64::new(2 * h, height) * y_scale - y_scale`. -/
def sampleY (height h : ℤ) : ℚ :=
  (2 * h : ℚ) / (height : ℚ) * y_scale - y_scale

/-- The rational sample grid built by `get_divergence_vel` (outer loop over
rows `0..height`, inner loop over columns `0..width`). -/
def mandelGrid (width height : ℤ) : List (List (ℚ × ℚ)) :=
  (List.range height.toNat).map fun (h : ℕ) =>
    (List.range width.toNat).map fun (w : ℕ) =>
      (sampleX width height (w : ℤ), sampleY height (h : ℤ))

/-- `fn get_divergence_vel(width: i32, height: i32, threshold: f64)`:
map `transform` then `diverges_in` over every grid sample.  The parallel
iterators preserve index order, so they are modelled by `List.map`; the
`to_f64` conversions are modelled as the identity. -/
def get_divergence_vel (width height : ℤ) (threshold : ℚ) : List (List ℤ) :=
  (mandelGrid width height).map fun row =>
    row.map fun c => diverges_in (transform ⟨c.1, c.2⟩) threshold

/-- Sequential (fold-based, left-to-right) evaluation of the same per-cell
function over the same grid: comparison definition for claim C9. -/
def seqField (width height : ℤ) (threshold : ℚ) : List (List ℤ) :=
  (List.range height.toNat).foldl
    (fun acc (h : ℕ) =>
      acc ++ [(List.range width.toNat).foldl
        (fun racc (w : ℕ) =>
          racc ++ [diverges_in
            (transform ⟨sampleX width height (w : ℤ), sampleY height (h : ℤ)⟩)
            threshold])
        []])
    []

/-- `Rgb<u8>`, with mathematical integer channels. -/
structure Rgb where
  r : ℤ
  g : ℤ
  b : ℤ
deriving DecidableEq, Repr

/-- The channels of an `Rgb<u8>` value fit in eight bits. -/
def validRgb (c : Rgb) : Prop :=
  0 ≤ c.r ∧ c.r ≤ 255 ∧ 0 ≤ c.g ∧ c.g ≤ 255 ∧ 0 ≤ c.b ∧ c.b ≤ 255

instance (c : Rgb) : Decidable (validRgb c) :=
  inferInstanceAs (Decidable (_ ∧ _))

/-- `MathyColor<f64>`: a color with floating channel values, modelled
exactly. -/
structure MathyColor where
  r : ℚ
  g : ℚ
  b : ℚ
deriving DecidableEq, Repr

/-- `MathyColor::from_ref`: `u8` to `f64` conversion per channel (exact). -/
def MathyColor.from_ref (c : Rgb) : MathyColor := ⟨(c.r : ℚ), (c.g : ℚ), (c.b : ℚ)⟩

/-- Componentwise addition (`impl Add for MathyColor`). -/
def MathyColor.addc (a b : MathyColor) : MathyColor := ⟨a.r + b.r, a.g + b.g, a.b + b.b⟩

/-- Componentwise scaling (`impl Mul<F> for MathyColor`). -/
def MathyColor.smul (a : MathyColor) (t : ℚ) : MathyColor := ⟨a.r * t, a.g * t, a.b * t⟩

/-- The `lerp` crate blanket implementation:
`self * (F::one() - t) + other * t`. -/
def MathyColor.lerp (a b : MathyColor) (t : ℚ) : MathyColor :=
  (a.smul (1 - t)).addc (b.smul t)

/-- `f64::round()`: round to the nearest integer, halves away from zero. -/
def roundAway (q : ℚ) : ℤ :=
  if q < 0 then -(Int.floor (-q + 1/2)) else Int.floor (q + 1/2)

/-- `x.round().to_u8()`: `some` only when the rounded value fits in a `u8`. -/
def toU8 (q : ℚ) : Option ℤ :=
  let n := roundAway q
  if 0 ≤ n ∧ n ≤ 255 then some n else none

/-- `MathyColor::unwrap`: round each channel back to `u8`; `none` models the
panic of a failing conversion. -/
def MathyColor.unwrap (c : MathyColor) : Option Rgb :=
  match toU8 c.r, toU8 c.g, toU8 c.b with
  | some r, some g, some b => some ⟨r, g, b⟩
  | _, _, _ => none

/-- A `Palette` is its ordered list of `(position, color)` stops: the
`BTreeSet` of keys iterates in ascending key order and the `HashMap` is kept
in sync with it by `add_col`, so the pair of containers is one
strictly-sorted association list. -/
abbrev Palette := List (ℚ × Rgb)

/-- Keys are strictly increasing (the `BTreeSet` iteration order, with keys
unique). -/
def sortedStops (stops : Palette) : Prop :=
  List.Pairwise (fun a b => a.1 < b.1) stops

instance (stops : Palette) : Decidable (sortedStops stops) :=
  inferInstanceAs (Decidable (List.Pairwise _ _))

/-- The `for cur_key in &self._keys` loop of `Palette::get_color`, carrying
the running `prev_key` (with its color); `none` models the final
`panic!()`. -/
def getColorLoop (k : ℚ) : ℚ × Rgb → Palette → Option Rgb
  | _, [] => none
  | prev_key, cur_key :: rest =>
    if k ≤ cur_key.1 then
      let interpolation_factor : ℚ := (k - prev_key.1) / (cur_key.1 - prev_key.1)
      let prev_color_mathy : MathyColor := MathyColor.from_ref prev_key.2
      let cur_color_mathy : MathyColor := MathyColor.from_ref cur_key.2
      (prev_color_mathy.lerp cur_color_mathy interpolation_factor).unwrap
    else getColorLoop k cur_key rest

/-- `Palette::get_color`.  On an empty palette `self._keys.first().unwrap()`
panics (`none`); otherwise clamp below the first stop, else scan all stops in
ascending order. -/
def get_color (stops : Palette) (k : ℚ) : Option Rgb :=
  match stops with
  | [] => none
  | first_stop :: _ =>
    if k ≤ first_stop.1 then some first_stop.2
    else getColorLoop k first_stop stops

/-- The blend performed by the matching branch of `get_color`: channel-wise
linear interpolation between the bracketing stops with factor
`t = (k - prev.position) / (cur.position - prev.position)`, each channel
rounded back to an eight-bit value. -/
def blendStops (prev cur : ℚ × Rgb) (k : ℚ) : Option Rgb :=
  (MathyColor.lerp (MathyColor.from_ref prev.2) (MathyColor.from_ref cur.2)
    ((k - prev.1) / (cur.1 - prev.1))).unwrap

/-! ### Basic unfolding lemmas -/

theorem QC.add_def (a b : QC) : a + b = ⟨a.re + b.re, a.im + b.im⟩ := rfl

theorem QC.sub_def (a b : QC) : a - b = ⟨a.re - b.re, a.im - b.im⟩ := rfl

theorem QC.mul_def (a b : QC) :
    a * b = ⟨a.re * b.re - a.im * b.im, a.re * b.im + a.im * b.re⟩ := rfl

/-! ### The divergence loop -/

/-- Any run of the loop starting from a count inside `[0, ITERMAX]` ends
inside `[0, ITERMAX]`. -/
theorem divergesLoop_range (c : QC) (t : ℚ) :
    ∀ (fuel : ℕ) (acc d1 : QC) (count : ℤ), 0 ≤ count → count ≤ ITERMAX →
      0 ≤ divergesLoop c t fuel acc d1 count ∧ divergesLoop c t fuel acc d1 count ≤ ITERMAX := by
  intro fuel
  induction fuel with
  | zero => intro acc d1 count h0 h1; exact ⟨h0, h1⟩
  | succ n ih =>
    intro acc d1 count h0 h1
    simp only [divergesLoop]
    split
    · next h => exact ih _ _ _ (add_nonneg h0 zero_le_one) (Int.add_one_le_iff.mpr h.2)
    · exact ⟨h0, h1⟩

/-- Specialization to `diverges_in`. -/
theorem diverges_in_range (c : QC) (t : ℚ) :
    0 ≤ diverges_in c t ∧ diverges_in c t ≤ ITERMAX :=
  divergesLoop_range c t 100 c ⟨0, 0⟩ 0 le_rfl (by decide)

/-- If the guard fails, the loop returns the current count at once. -/
theorem divergesLoop_not_guard (c : QC) (t : ℚ) (fuel : ℕ) (acc d1 : QC) (count : ℤ)
    (h : ¬(absLt acc t ∧ count < ITERMAX)) :
    divergesLoop c t fuel acc d1 count = count := by
  cases fuel with
  | zero => rfl
  | succ n =>
    simp only [divergesLoop]
    exact if_neg h

/-- C1: for every complex input and threshold, `diverges_in` returns a value
in `[0, ITERMAX]` with `ITERMAX = 100`, and consequently every entry of the
velocity field produced by `get_divergence_vel` lies in `[0, ITERMAX]`. -/
theorem C1_velocity_range :
    (∀ (c : QC) (t : ℚ), 0 ≤ diverges_in c t ∧ diverges_in c t ≤ ITERMAX) ∧
    (∀ (width height : ℤ) (t : ℚ),
      ∀ row ∈ get_divergence_vel width height t, ∀ v ∈ row, 0 ≤ v ∧ v ≤ ITERMAX) := by
  refine ⟨diverges_in_range, ?_⟩
  intro width height t row hrow v hv
  simp only [get_divergence_vel, List.mem_map] at hrow
  obtain ⟨row0, -, rfl⟩ := hrow
  simp only [List.mem_map] at hv
  obtain ⟨cc, -, rfl⟩ := hv
  exact diverges_in_range _ _

/-- C1, instantiated: a concrete input and a concrete velocity-field entry. -/
theorem C1_velocity_range_witness :
    (0 ≤ diverges_in ⟨3, 0⟩ 2 ∧ diverges_in ⟨3, 0⟩ 2 ≤ ITERMAX) ∧
    (0 ≤ (0 : ℤ) ∧ (0 : ℤ) ≤ ITERMAX) :=
  ⟨C1_velocity_range.1 ⟨3, 0⟩ 2,
   C1_velocity_range.2 1 1 (1/10) [0] (by decide) 0 (by decide)⟩

/-- C3: if the magnitude of `c` is at least the threshold (over the reals,
`|c| ≥ t` holds exactly when `t ≤ 0` or `t * t ≤ normSq c`), the loop body
never runs and `diverges_in` returns `0`. -/
theorem C3_no_escape_zero (c : QC) (t : ℚ) (h : t ≤ 0 ∨ t * t ≤ QC.normSq c) :
    diverges_in c t = 0 := by
  have hg : ¬(absLt c t ∧ (0 : ℤ) < ITERMAX) := by
    rintro ⟨⟨hpos, hlt⟩, -⟩
    rcases h with h | h
    · exact absurd hpos (not_lt.mpr h)
    · exact absurd hlt (not_lt.mpr h)
  exact divergesLoop_not_guard c t 100 c ⟨0, 0⟩ 0 hg

/-- C3, instantiated at `c = 3`, `threshold = 2`. -/
theorem C3_no_escape_zero_witness : diverges_in ⟨3, 0⟩ 2 = 0 :=
  C3_no_escape_zero ⟨3, 0⟩ 2 (Or.inr (by decide))

/-- The finite-difference bookkeeping does not influence the loop result. -/
theorem divergesLoop_eq_plainLoop (c : QC) (t : ℚ) :
    ∀ (fuel : ℕ) (acc d1 : QC) (count : ℤ),
      divergesLoop c t fuel acc d1 count = plainLoop c t fuel acc count := by
  intro fuel
  induction fuel with
  | zero => intro acc d1 count; rfl
  | succ n ih =>
    intro acc d1 count
    simp only [divergesLoop, plainLoop]
    split
    · exact ih _ _ _
    · rfl

/-- C8: the near-periodicity detection inside `diverges_in` is inert — the
function returns exactly the count of the plain escape-time loop with the
detection code removed, for every input. -/
theorem C8_detection_inert (c : QC) (t : ℚ) : diverges_in c t = plainDiverge c t :=
  divergesLoop_eq_plainLoop c t 100 c ⟨0, 0⟩ 0

/-! ### The sample grid and the velocity field -/

/-- Folding a push-append over a list is the same as mapping over it. -/
theorem foldl_push_eq_map {α : Type} (f : ℕ → α) :
    ∀ (l : List ℕ) (acc : List α),
      l.foldl (fun a i => a ++ [f i]) acc = acc ++ l.map f := by
  intro l
  induction l with
  | nil => intro acc; simp
  | cons x xs ih => intro acc; simp [ih]

/-- C9: the computation is deterministic (`diverges_in` is a pure function of
`(c, threshold)`), the order-preserving parallel map of `get_divergence_vel`
produces a field bit-identical to a purely sequential left-to-right
evaluation over the same grid, and each entry is exactly the per-cell
function applied at its own `(x, y)` sample. -/
theorem C9_deterministic_parallel :
    (∀ (c : QC) (t : ℚ), diverges_in c t = diverges_in c t) ∧
    (∀ (width height : ℤ) (t : ℚ),
      get_divergence_vel width height t = seqField width height t) ∧
    (∀ (width height : ℤ) (t : ℚ),
      get_divergence_vel width height t =
        (List.range height.toNat).map fun (h : ℕ) =>
          (List.range width.toNat).map fun (w : ℕ) =>
            diverges_in (transform ⟨sampleX width height (w : ℤ), sampleY height (h : ℤ)⟩) t) := by
  have hmap : ∀ (width height : ℤ) (t : ℚ),
      get_divergence_vel width height t =
        (List.range height.toNat).map fun (h : ℕ) =>
          (List.range width.toNat).map fun (w : ℕ) =>
            diverges_in (transform ⟨sampleX width height (w : ℤ), sampleY height (h : ℤ)⟩) t := by
    intro width height t
    rw [get_divergence_vel, mandelGrid, List.map_map]
    refine List.map_congr_left ?_
    intro h hmem
    simp only [Function.comp_apply]
    rw [List.map_map]
    rfl
  refine ⟨fun c t => rfl, fun width height t => ?_, hmap⟩
  rw [hmap]
  rw [seqField, foldl_push_eq_map]
  simp only [foldl_push_eq_map, List.nil_append]

/-- C2 counterexample: with `width = height = 2` the last pixel `(1, 1)` is
mapped to the sample `(0, 0)`, not to the opposite window corner
`(x_scale, y_scale) = (28/25, 28/25)`; the upper boundary values of the view
window are not attained by the grid. -/
theorem C2_grid_mapping_counterexample :
    sampleX 2 2 1 = 0 ∧ sampleY 2 1 = 0 ∧
    x_scale 2 2 = 28/25 ∧ y_scale = 28/25 ∧
    ¬(sampleX 2 2 1 = x_scale 2 2 ∧ sampleY 2 1 = y_scale) := by
  decide

/-- C2 (amended): for positive dimensions, pixel `(0, 0)` is mapped to the
corner `(-x_scale, -y_scale)` of the view window, the grid has exactly
`width` (resp. `height`) samples per axis, evenly spaced with step
`2·scale/size`, but the grid spans the half-open window: pixel
`(width-1, height-1)` is mapped to
`((width-2)/width · x_scale, (height-2)/height · y_scale)`, one step short of
the opposite corner, so only the lower boundary values are attained. -/
theorem C2_grid_mapping (width height : ℤ) (hw : 0 < width) (hh : 0 < height) :
    sampleX width height 0 = -x_scale width height ∧
    sampleY height 0 = -y_scale ∧
    (∀ w : ℤ, sampleX width height (w + 1) - sampleX width height w
      = 2 * x_scale width height / (width : ℚ)) ∧
    (∀ h : ℤ, sampleY height (h + 1) - sampleY height h = 2 * y_scale / (height : ℚ)) ∧
    sampleX width height (width - 1)
      = x_scale width height * ((width : ℚ) - 2) / (width : ℚ) ∧
    sampleY height (height - 1) = y_scale * ((height : ℚ) - 2) / (height : ℚ) ∧
    (mandelGrid width height).length = height.toNat ∧
    (∀ row ∈ mandelGrid width height, row.length = width.toNat) := by
  have hw0 : (width : ℚ) ≠ 0 := Int.cast_ne_zero.mpr (ne_of_gt hw)
  have hh0 : (height : ℚ) ≠ 0 := Int.cast_ne_zero.mpr (ne_of_gt hh)
  refine ⟨?_, ?_, ?_, ?_, ?_, ?_, ?_, ?_⟩
  · simp [sampleX]
  · simp [sampleY]
  · intro w
    rw [sampleX, sampleX]
    push_cast
    field_simp
    ring
  · intro h
    rw [sampleY, sampleY]
    push_cast
    field_simp
    ring
  · rw [sampleX]
    push_cast
    field_simp
    ring
  · rw [sampleY]
    push_cast
    field_simp
    ring
  · simp only [mandelGrid, List.length_map, List.length_range]
  · intro row hrow
    simp only [mandelGrid, List.mem_map] at hrow
    obtain ⟨i, -, rfl⟩ := hrow
    simp only [List.length_map, List.length_range]

/-- C2, instantiated at `width = 3`, `height = 2`. -/
theorem C2_grid_mapping_witness :
    sampleX 3 2 0 = -x_scale 3 2 ∧ sampleY 2 0 = -y_scale :=
  ⟨(C2_grid_mapping 3 2 (by decide) (by decide)).1,
   (C2_grid_mapping 3 2 (by decide) (by decide)).2.1⟩

/-! ### The conformal transform -/

/-- C7 counterexample: at the input `0 - 0.53i` named by the claim the
translated-and-rotated value is `1.06`, not the singular point, and
`transform` returns `0.4 / 1.06 = 20/53`, not the fallback `(10, 10)`. -/
theorem C7_transform_counterexample :
    transform ⟨0, -(53/100)⟩ = ⟨20/53, 0⟩ ∧ transform ⟨0, -(53/100)⟩ ≠ ⟨10, 10⟩ := by
  decide

/-- C7 (amended): `transform` is a total function; the singular point of the
inversion is hit exactly at the input `0 + 0.53i` (the point translated to
zero), where the defined fallback `(10, 10)` is returned; at every other
input `transform` performs the inversion `0.4 / ((z - 0.53i) * i)`. -/
theorem C7_transform_total :
    (∀ z : QC, ((z + ⟨0, -(53/100)⟩) * QC.I).normSq = 0 ↔ z = ⟨0, 53/100⟩) ∧
    transform ⟨0, 53/100⟩ = ⟨10, 10⟩ ∧
    (∀ z : QC, z ≠ ⟨0, 53/100⟩ →
      transform z = QC.div ⟨4/10, 0⟩ ((z + ⟨0, -(53/100)⟩) * QC.I)) := by
  have key : ∀ z : QC, ((z + ⟨0, -(53/100)⟩) * QC.I).normSq = 0 ↔ z = ⟨0, 53/100⟩ := by
    intro z
    obtain ⟨x, y⟩ := z
    simp only [QC.add_def, QC.mul_def, QC.I, QC.normSq, QC.mk.injEq]
    constructor
    · intro h
      have hx : x * x = 0 := by nlinarith [mul_self_nonneg x, mul_self_nonneg (y + -(53/100))]
      have hy : (y + -(53/100)) * (y + -(53/100)) = 0 := by
        nlinarith [mul_self_nonneg x, mul_self_nonneg (y + -(53/100))]
      have hx0 : x = 0 := by
        have := mul_self_eq_zero.mp hx
        exact this
      have hy0 : y = 53/100 := by
        have := mul_self_eq_zero.mp hy
        linarith
      exact ⟨hx0, hy0⟩
    · rintro ⟨rfl, rfl⟩
      ring
  refine ⟨key, by decide, ?_⟩
  intro z hz
  have hne : ((z + ⟨0, -(53/100)⟩) * QC.I).normSq ≠ 0 := fun h => hz ((key z).mp h)
  simp only [transform]
  rw [if_neg hne]

/-- C7, instantiated at `z = 0` (a regular point, sent through the
inversion branch). -/
theorem C7_transform_total_witness :
    transform ⟨0, 0⟩ = QC.div ⟨4/10, 0⟩ ((⟨0, 0⟩ + ⟨0, -(53/100)⟩) * QC.I) :=
  C7_transform_total.2.2 ⟨0, 0⟩ (by decide)

/-! ### The palette -/

/-- C5: a key at or below the smallest stop position is clamped to the
smallest stop's color, returned unchanged. -/
theorem C5_clamp_below (k0 : ℚ) (c0 : Rgb) (rest : Palette) (k : ℚ)
    (hsorted : sortedStops ((k0, c0) :: rest)) (hk : k ≤ k0) :
    get_color ((k0, c0) :: rest) k = some c0 := by
  have : sortedStops ((k0, c0) :: rest) := hsorted
  simp [get_color, hk]

/-- C5, instantiated on a one-stop palette with `k = -1 < 0`. -/
theorem C5_clamp_below_witness :
    get_color [(0, ⟨1, 2, 3⟩)] (-1) = some ⟨1, 2, 3⟩ :=
  C5_clamp_below 0 ⟨1, 2, 3⟩ [] (-1) (by decide) (by decide)

/-- If every remaining stop is strictly below the key, the scanning loop
falls off the end of the palette (the `panic!()`, modelled by `none`). -/
theorem getColorLoop_none (k : ℚ) :
    ∀ (l : Palette) (prev : ℚ × Rgb), (∀ s ∈ l, s.1 < k) →
      getColorLoop k prev l = none := by
  intro l
  induction l with
  | nil => intro prev h; rfl
  | cons cur rest ih =>
    intro prev h
    have hcur : cur.1 < k := h cur (List.mem_cons_self ..)
    simp only [getColorLoop]
    rw [if_neg (not_le.mpr hcur)]
    exact ih cur (fun s hs => h s (List.mem_cons_of_mem _ hs))

/-- C6: a key strictly above every stop position makes `get_color` fail
fatally (the `panic!()`, modelled by `none`) instead of returning a color. -/
theorem C6_above_range_panics (stops : Palette) (k : ℚ)
    (hne : stops ≠ []) (habove : ∀ s ∈ stops, s.1 < k) :
    get_color stops k = none := by
  cases stops with
  | nil => exact absurd rfl hne
  | cons first_stop rest =>
    have h1 : first_stop.1 < k := habove first_stop (List.mem_cons_self ..)
    simp only [get_color]
    rw [if_neg (not_le.mpr h1)]
    exact getColorLoop_none k (first_stop :: rest) first_stop habove

/-- C6, instantiated on a one-stop palette with `k = 2` above the stop. -/
theorem C6_above_range_panics_witness :
    get_color [(0, ⟨5, 6, 7⟩)] 2 = none :=
  C6_above_range_panics [(0, ⟨5, 6, 7⟩)] 2 (by decide) (by decide)

/-- The scanning loop skips every stop strictly below the key and blends at
the first stop at or above it, with the last skipped stop as `prev`. -/
theorem getColorLoop_find (k ck : ℚ) (cc : Rgb) (l2 : Palette) :
    ∀ (ys : Palette) (prev : ℚ × Rgb), (∀ s ∈ ys, s.1 < k) → k ≤ ck →
      getColorLoop k prev (ys ++ (ck, cc) :: l2) =
        blendStops (ys.getLastD prev) (ck, cc) k := by
  intro ys
  induction ys with
  | nil =>
    intro prev h hk
    simp only [List.nil_append, getColorLoop]
    rw [if_pos hk]
    rfl
  | cons s rest ih =>
    intro prev h hk
    have hs : s.1 < k := h s (List.mem_cons_self ..)
    simp only [List.cons_append, getColorLoop]
    rw [if_neg (not_le.mpr hs)]
    rw [List.getLastD_cons]
    exact ih s (fun x hx => h x (List.mem_cons_of_mem _ hx)) hk

/-- C4 counterexample: on the concrete palette of the claim the lookup at
`0.3` returns `(164, 78, 87)`, not `(163, 78, 86)`: the `r` and `b` channels
blend to exactly `163.5` and `86.5`, and `f64::round()` rounds halves away
from zero. -/
theorem C4_blend_counterexample :
    get_color [(0, ⟨72, 67, 73⟩), (1/10, ⟨72, 67, 73⟩), (1/2, ⟨255, 89, 100⟩), (1, ⟨72, 67, 73⟩)]
      (3/10) ≠ some ⟨163, 78, 86⟩ := by
  decide

/-- C4 (amended): for every sorted palette and key `k` bracketed by two
adjacent stops (`prev.position < k ≤ cur.position`, with `k` above the
smallest stop), `get_color` returns the channel-wise linear blend of the two
bracketing stops with factor `t = (k - prev.position) /
(cur.position - prev.position)`, each channel rounded to the nearest
eight-bit value; in particular, on the palette of the concrete scenario,
`get_color 0.3` blends the `0.1` and `0.5` stops into `(164, 78, 87)` — the
`r` and `b` channels blend to exactly `163.5` and `86.5`, which `round()`
takes away from zero — not `(163, 78, 86)` as the claim states. -/
theorem C4_blend :
    (∀ (l1 l2 : Palette) (pk ck : ℚ) (pc cc : Rgb) (k : ℚ),
      sortedStops (l1 ++ (pk, pc) :: (ck, cc) :: l2) →
      pk < k → k ≤ ck →
      get_color (l1 ++ (pk, pc) :: (ck, cc) :: l2) k = blendStops (pk, pc) (ck, cc) k) ∧
    get_color [(0, ⟨72, 67, 73⟩), (1/10, ⟨72, 67, 73⟩), (1/2, ⟨255, 89, 100⟩), (1, ⟨72, 67, 73⟩)]
      (3/10) = some ⟨164, 78, 87⟩ := by
  constructor
  · intro l1 l2 pk ck pc cc k hsorted hpk hck
    have hpw : List.Pairwise (fun a b => a.1 < b.1) (l1 ++ (pk, pc) :: (ck, cc) :: l2) :=
      hsorted
    have hl1 : ∀ s ∈ l1, s.1 < pk := by
      have hp := (List.pairwise_append.mp hpw).2.2
      intro s hs
      exact hp s hs (pk, pc) (List.mem_cons_self ..)
    cases l1 with
    | nil =>
      simp only [List.nil_append, get_color]
      rw [if_neg (not_le.mpr hpk)]
      have hfind := getColorLoop_find k ck cc l2 [(pk, pc)] (pk, pc)
        (by
          intro s hs
          rw [List.mem_singleton.mp hs]
          exact hpk)
        hck
      exact hfind
    | cons a as =>
      have hak : a.1 < k := lt_trans (hl1 a (List.mem_cons_self ..)) hpk
      simp only [List.cons_append, get_color]
      rw [if_neg (not_le.mpr hak)]
      have hkeys : ∀ s ∈ a :: (as ++ [(pk, pc)]), s.1 < k := by
        intro s hs
        rcases List.mem_cons.mp hs with rfl | hs'
        · exact hak
        · rcases List.mem_append.mp hs' with h1 | h2
          · exact lt_trans (hl1 s (List.mem_cons_of_mem _ h1)) hpk
          · rw [List.mem_singleton.mp h2]
            exact hpk
      have hfind := getColorLoop_find k ck cc l2 (a :: (as ++ [(pk, pc)])) a hkeys hck
      have hshape : (a :: (as ++ [(pk, pc)])) ++ (ck, cc) :: l2
          = a :: (as ++ (pk, pc) :: (ck, cc) :: l2) := by simp
      rw [hshape] at hfind
      have hlast : (a :: (as ++ [(pk, pc)])).getLastD a = (pk, pc) := by
        rw [List.getLastD_cons]
        exact List.getLastD_concat ..
      rw [hlast] at hfind
      exact hfind
  · decide

/-- C4, instantiated on a two-stop palette at its midpoint key. -/
theorem C4_blend_witness :
    get_color [(0, ⟨10, 20, 30⟩), (1, ⟨30, 40, 50⟩)] (1/2)
      = blendStops (0, ⟨10, 20, 30⟩) (1, ⟨30, 40, 50⟩) (1/2) :=
  C4_blend.1 [] [] 0 1 ⟨10, 20, 30⟩ ⟨30, 40, 50⟩ (1/2) (by decide) (by decide) (by decide)

/-- Rounding an integer-valued rational is the identity. -/
theorem roundAway_intCast (n : ℤ) (hn : 0 ≤ n) : roundAway (n : ℚ) = n := by
  have h0 : ¬((n : ℚ) < 0) := not_lt.mpr (by exact_mod_cast hn)
  rw [roundAway, if_neg h0, add_comm, Int.floor_add_int]
  have hhalf : (⌊(1 : ℚ)/2⌋ : ℤ) = 0 := by decide
  rw [hhalf, zero_add]

/-- Converting an in-range integer-valued channel back to `u8` succeeds and
is exact. -/
theorem toU8_intCast (n : ℤ) (h0 : 0 ≤ n) (h255 : n ≤ 255) : toU8 (n : ℚ) = some n := by
  simp only [toU8, roundAway_intCast n h0]
  rw [if_pos ⟨h0, h255⟩]

/-- `unwrap` undoes `from_ref` on a valid eight-bit color. -/
theorem unwrap_from_ref (c : Rgb) (hv : validRgb c) :
    (MathyColor.from_ref c).unwrap = some c := by
  obtain ⟨h1, h2, h3, h4, h5, h6⟩ := hv
  simp only [MathyColor.from_ref, MathyColor.unwrap]
  rw [toU8_intCast c.r h1 h2, toU8_intCast c.g h3 h4, toU8_intCast c.b h5 h6]

/-- Linear interpolation with factor `1` returns the second color exactly. -/
theorem lerp_one (a b : MathyColor) : a.lerp b 1 = b := by
  obtain ⟨br, bg, bb⟩ := b
  simp [MathyColor.lerp, MathyColor.smul, MathyColor.addc]

/-- Blending at a key equal to the current stop position has factor exactly
`1` and reproduces the current stop's color without rounding error. -/
theorem blendStops_self (prev : ℚ × Rgb) (p : ℚ) (c : Rgb)
    (hlt : prev.1 < p) (hv : validRgb c) :
    blendStops prev (p, c) p = some c := by
  have hd : p - prev.1 ≠ 0 := sub_ne_zero_of_ne (ne_of_gt hlt)
  show (MathyColor.lerp (MathyColor.from_ref prev.2) (MathyColor.from_ref c)
    ((p - prev.1) / (p - prev.1))).unwrap = some c
  rw [div_self hd, lerp_one, unwrap_from_ref c hv]

/-- The scanning loop, reaching a stored stop key from below, returns that
stop's color exactly. -/
theorem getColorLoop_stop (p : ℚ) (c : Rgb) :
    ∀ (l : Palette) (prev : ℚ × Rgb),
      List.Pairwise (fun a b => a.1 < b.1) l →
      (∀ s ∈ l, validRgb s.2) →
      prev.1 < p → (p, c) ∈ l →
      getColorLoop p prev l = some c := by
  intro l
  induction l with
  | nil => intro prev _ _ _ hm; exact absurd hm (List.not_mem_nil _)
  | cons cur rest ih =>
    intro prev hpw hv hprev hm
    by_cases hcase : p ≤ cur.1
    · have hcur : (p, c) = cur := by
        rcases List.mem_cons.mp hm with h | h
        · exact h
        · exfalso
          have hlt := (List.pairwise_cons.mp hpw).1 (p, c) h
          exact absurd hcase (not_le.mpr hlt)
      simp only [getColorLoop]
      rw [if_pos hcase]
      show blendStops prev cur p = some c
      rw [← hcur]
      refine blendStops_self prev p c hprev ?_
      have hvc := hv cur (List.mem_cons_self ..)
      rw [← hcur] at hvc
      exact hvc
    · have hm' : (p, c) ∈ rest := by
        rcases List.mem_cons.mp hm with h | h
        · exfalso
          apply hcase
          rw [← h]
        · exact h
      simp only [getColorLoop]
      rw [if_neg hcase]
      exact ih cur (List.pairwise_cons.mp hpw).2
        (fun s hs => hv s (List.mem_cons_of_mem _ hs)) (not_le.mp hcase) hm'

/-- C10: for every sorted palette of valid eight-bit colors, looking up the
exact position of any stored stop returns exactly that stop's color — the
smallest stop through the clamp branch, every other stop through a blend
whose factor is exactly `1`. -/
theorem C10_stop_exact (stops : Palette) (p : ℚ) (c : Rgb)
    (hsorted : sortedStops stops) (hvalid : ∀ s ∈ stops, validRgb s.2)
    (hmem : (p, c) ∈ stops) :
    get_color stops p = some c := by
  have hpw : List.Pairwise (fun a b => a.1 < b.1) stops := hsorted
  cases stops with
  | nil => exact absurd hmem (List.not_mem_nil _)
  | cons first_stop rest =>
    by_cases hp : p ≤ first_stop.1
    · have hfirst : (p, c) = first_stop := by
        rcases List.mem_cons.mp hmem with h | h
        · exact h
        · exfalso
          have hlt := (List.pairwise_cons.mp hpw).1 (p, c) h
          exact absurd hp (not_le.mpr hlt)
      simp only [get_color]
      rw [if_pos hp, ← hfirst]
    · simp only [get_color]
      rw [if_neg hp]
      exact getColorLoop_stop p c (first_stop :: rest) first_stop hpw hvalid
        (not_le.mp hp) hmem

/-- C10, instantiated on a two-stop palette at its second stop. -/
theorem C10_stop_exact_witness :
    get_color [(0, ⟨1, 2, 3⟩), (1/2, ⟨4, 5, 6⟩)] (1/2) = some ⟨4, 5, 6⟩ :=
  C10_stop_exact [(0, ⟨1, 2, 3⟩), (1/2, ⟨4, 5, 6⟩)] (1/2) ⟨4, 5, 6⟩
    (by decide) (by decide) (by decide)

end Mandelbrot
